import Mathlib

/-!
Verification of the complex-logic-combine helper
(`llvm/lib/Analysis/ComplexLogicCombine.cpp`,
`llvm/include/llvm/Analysis/LogicalExpr.h`,
`llvm/include/llvm/Analysis/ComplexLogicCombine.h`).

A logical expression over opaque IR leaves is represented as a set of 64-bit
monomial masks (a polynomial over the Boolean ring GF(2)): each mask is an
and-chain of leaves, the set is a xor-chain of masks.  Bit 63 of a mask is the
reserved all-ones sentinel (`LogicalExpr::ExprAllOne`), bit 62 the reserved
zero sentinel (`LogicalExpr::ExprZero`).

The embedding below models:
  * the polynomial algebra of `LogicalExpr` (`addExpr`, `mulExpr` and the
    derived `&`, `|`, `^`, `~` operators);
  * the builder `LogicalOpsHelper` (`visitLeafNode`, `visitBinOp`,
    `getLogicalOpNode`) as explicit state passing over a `BuilderState`;
  * the reconstruction `logicalOpToValue` and the driver `simplify`.

Host IR values are modelled as natural-number identities; a `Program` maps
each value identity to its classification (AND/OR/XOR binary operator with two
operand identities, other binary operator, constant zero, constant all-ones,
or an opaque value), mirroring exactly the queries the C++ code makes
(`dyn_cast<BinaryOperator>`, `getOpcode`, `dyn_cast<ConstantInt>`,
`isZero`, `isAllOnesValue`).  The uniqued constants that
`Constant::getNullValue` / `Constant::getAllOnesValue` return for the root's
type are the designated identities `zeroId` / `allOnesId`.

The C++ recursion `getLogicalOpNode(Val, Depth)` stops exactly when
`Depth == MaxDepthLogicOpsToScan`; the Lean function carries the remaining
fuel `MaxDepth - Depth` (so fuel `0` is precisely the C++ test
`Depth == MaxDepthLogicOpsToScan`) together with the original `Depth`
parameter, which `visitLeafNode` still inspects for its `Depth == 0` test.
-/

namespace CLC

/-- `LogicalExpr::ExprAllOne = 0x8000000000000000`: the all-ones sentinel,
bit 63 of a monomial mask. -/
def ExprAllOne : Nat := 2 ^ 63

/-- `LogicalExpr::ExprZero = 0x4000000000000000`: the zero sentinel,
bit 62 of a monomial mask. -/
def ExprZero : Nat := 2 ^ 62

/-- `llvm::popcount` on a `uint64_t`: number of set bits among bits
0 to 63 of the mask. -/
def popcount (n : Nat) : Nat :=
  ((List.range 64).filter fun i => n.testBit i).length

/-- `llvm::Log2_64` on a `uint64_t`: the index of the highest set bit
(63 xor the number of leading zeros). -/
def log2_64 (n : Nat) : Nat :=
  ((List.range 64).filter fun i => n.testBit i).foldr max 0

/-- A `LogicalExpr`: the unordered add-chain (`SmallDenseSet<uint64_t, 8>`)
of monomial masks.  (The redundant `LeafMask` field of the C++ class is
recomputed from the set and never read by the combiner, so it is omitted.) -/
abbrev Poly := Finset Nat

/-- `LogicalExpr::operator+=` (ring addition, i.e. XOR): every mask of the
right operand toggles its membership in the left operand (`insert` if new,
`erase` if already present — `a ^ a -> 0`).  Toggling each element of a set
of distinct masks is exactly the symmetric difference. -/
def addExpr (p q : Poly) : Poly := (p \ q) ∪ (q \ p)

/-- The mask combination step of `LogicalExpr::operator*=`: the conjunction
of two and-chains is the OR of their masks (`x * x = x`); if the result has
the all-ones sentinel set together with other bits, the sentinel is cleared
(`a & 1 -> a`, the C++ `NewMask &= ~ExprAllOne` on a 64-bit value). -/
def mulMask (l r : Nat) : Nat :=
  let m := l ||| r
  if m ≠ ExprAllOne ∧ m &&& ExprAllOne ≠ 0 then m &&& (ExprAllOne - 1) else m

/-- The pairs the double loop of `LogicalExpr::operator*=` actually combines:
all pairs of masks from the two operands, where masks containing the zero
sentinel are skipped (`a & 0 -> 0`, `0 & a -> 0`). -/
def mulPairs (p q : Poly) : Finset (Nat × Nat) :=
  (p.filter fun l => l &&& ExprZero = 0) ×ˢ (q.filter fun r => r &&& ExprZero = 0)

/-- `LogicalExpr::operator*=` (ring multiplication, i.e. AND): distribute the
product, toggling each combined mask into a fresh set (`a ^ a -> 0`).  A mask
belongs to the result exactly when an odd number of the combined pairs
produce it, which is what the C++ insert-or-erase loop computes. -/
def mulExpr (p q : Poly) : Poly :=
  ((mulPairs p q).image fun x => mulMask x.1 x.2).filter
    fun m => ((mulPairs p q).filter fun x => mulMask x.1 x.2 = m).card % 2 = 1

/-- `operator&` on `LogicalExpr`: `a * b`. -/
def andExpr (p q : Poly) : Poly := mulExpr p q

/-- `operator^` on `LogicalExpr`: `a + b`. -/
def xorExpr (p q : Poly) : Poly := addExpr p q

/-- `operator|` on `LogicalExpr`: `a * b + a + b`. -/
def orExpr (p q : Poly) : Poly := addExpr (addExpr (mulExpr p q) p) q

/-- `operator~` on `LogicalExpr`: `a + AllOneExpr`. -/
def notExpr (p : Poly) : Poly := addExpr p {ExprAllOne}

/-- The binary-operator opcodes the combiner distinguishes: `Instruction::And`,
`Instruction::Or`, `Instruction::Xor`, and every other opcode. -/
inductive LogicOp where
  | andOp | orOp | xorOp | otherOp
deriving DecidableEq

/-- Classification of a host IR value, exactly the queries the C++ code makes:
a binary operator with its opcode and two operand identities
(`dyn_cast<BinaryOperator>`, `getOperand`), the integer constant zero, the
integer constant all-ones (`dyn_cast<ConstantInt>` + `isZero` /
`isAllOnesValue`), or any other value (arguments, loads, calls, constants that
are neither 0 nor -1, ...). -/
inductive ValueKind where
  | binop (op : LogicOp) (lhs rhs : Nat)
  | constZero
  | constAllOnes
  | otherVal
deriving DecidableEq

/-- The host IR, as far as the combiner can observe it: every value identity
is classified, and the uniqued constants that `Constant::getNullValue` /
`Constant::getAllOnesValue` return for the root's type are designated. -/
structure Program where
  kind : Nat → ValueKind
  zeroId : Nat
  allOnesId : Nat

/-- The two command-line bounds: `clc-max-logic-leafs`
(`MaxLogicOpLeafsToScan`, default 8) and `clc-max-depth`
(`MaxDepthLogicOpsToScan`, default 8). -/
structure Config where
  maxLeaves : Nat
  maxDepth : Nat

/-- The default configuration: both flags default to 8. -/
def defaultConfig : Config := ⟨8, 8⟩

/-- The mutable caches of `LogicalOpsHelper`: the node cache
`LogicalOpNodes` (value identity to the polynomial of its owned
`LogicalOpNode`), the deduplication set `LeafSet`, and the ordered leaf table
`LeafValues`. -/
structure BuilderState where
  nodes : Nat → Option Poly
  leafSet : Finset Nat
  leafValues : List Nat

/-- The caches of a freshly constructed `LogicalOpsHelper`. -/
def emptyState : BuilderState :=
  { nodes := fun _ => none, leafSet := ∅, leafValues := [] }

/-- `LogicalOpsHelper::clear`: delete every owned node and empty all three
caches together (called by the destructor only). -/
def clearCaches (_s : BuilderState) : BuilderState := emptyState

/-- The mask `visitLeafNode` computes for a leaf value: `ExprZero` for the
integer constant zero, `ExprAllOne` for the integer constant all-ones, and
the fresh leaf bit `1 << LeafSet.size()` for everything else (the C++
computes the shift first and overwrites it on the two constants — same
result). -/
def leafMask (prog : Program) (v card : Nat) : Nat :=
  match prog.kind v with
  | .constZero => ExprZero
  | .constAllOnes => ExprAllOne
  | _ => 2 ^ card

/-- The leaf-table update of `visitLeafNode`:
`if (ExprVal != ExprAllOne && ExprVal != ExprZero && LeafSet.insert(Val).second)
   LeafValues.push_back(Val);`. -/
def pushLeaf (v ev : Nat) (s : BuilderState) : BuilderState :=
  if ev ≠ ExprAllOne ∧ ev ≠ ExprZero ∧ v ∉ s.leafSet then
    { s with leafSet := insert v s.leafSet,
             leafValues := s.leafValues ++ [v] }
  else s

/-- The node-cache update `LogicalOpNodes[Val] = Node`. -/
def cacheNode (v : Nat) (e : Poly) (s : BuilderState) : BuilderState :=
  { s with nodes := fun k => if k = v then some e else s.nodes k }

/-- `LogicalOpsHelper::visitLeafNode`.  Bails out when the root itself is a
leaf (`Depth == 0`) or the leaf budget is exhausted
(`LeafSet.size() > MaxLogicOpLeafsToScan`).  Otherwise the leaf gets its
mask (`leafMask`), is tabled if it is a fresh non-sentinel leaf
(`pushLeaf`), and its singleton-polynomial node is cached. -/
def visitLeafNode (prog : Program) (cfg : Config) (v depth : Nat)
    (s : BuilderState) : Option Poly × BuilderState :=
  if depth = 0 ∨ cfg.maxLeaves < s.leafSet.card then (none, s)
  else
    (some {leafMask prog v s.leafSet.card},
     cacheNode v {leafMask prog v s.leafSet.card}
       (pushLeaf v (leafMask prog v s.leafSet.card) s))

/-- `LogicalOpsHelper::getLogicalOpNode(Val, Depth)`.  The first argument is
the remaining fuel `MaxDepth - Depth`: fuel `0` is the C++ bail-out test
`Depth == MaxDepthLogicOpsToScan`.  Otherwise a cached node is returned
as-is; an uncached binary operator goes to `LogicalOpsHelper::visitBinOp`
(inlined here so that the mutual recursion is structural on the fuel; the
standalone `visitBinOp` below is definitionally this inlined branch), and
anything else to `visitLeafNode`.  `visitBinOp` treats a binary operator that
is not and/or/xor as a leaf; otherwise it translates both operands at
`Depth + 1` (one fuel unit less), propagates failure, combines the operand
polynomials with the matching ring operator, and caches the node. -/
def getLogicalOpNode (prog : Program) (cfg : Config) :
    Nat → Nat → Nat → BuilderState → Option Poly × BuilderState
  | 0, _, _, s => (none, s)
  | fuel + 1, depth, v, s =>
    match s.nodes v with
    | some e => (some e, s)
    | none =>
      match prog.kind v with
      | .binop op l r =>
        if op = .otherOp then visitLeafNode prog cfg v depth s
        else
          match getLogicalOpNode prog cfg fuel (depth + 1) l s with
          | (none, s1) => (none, s1)
          | (some le, s1) =>
            match getLogicalOpNode prog cfg fuel (depth + 1) r s1 with
            | (none, s2) => (none, s2)
            | (some re, s2) =>
              let e :=
                match op with
                | .andOp => andExpr le re
                | .orOp => orExpr le re
                | _ => xorExpr le re
              (some e, cacheNode v e s2)
      | _ => visitLeafNode prog cfg v depth s

/-- `LogicalOpsHelper::visitBinOp`, as a standalone function: its body is
exactly the binary-operator branch of `getLogicalOpNode` above (see
`getLogicalOpNode_succ` for the definitional tie). -/
def visitBinOp (prog : Program) (cfg : Config) (fuel depth : Nat)
    (op : LogicOp) (v l r : Nat) (s : BuilderState) :
    Option Poly × BuilderState :=
  if op = .otherOp then visitLeafNode prog cfg v depth s
  else
    match getLogicalOpNode prog cfg fuel (depth + 1) l s with
    | (none, s1) => (none, s1)
    | (some le, s1) =>
      match getLogicalOpNode prog cfg fuel (depth + 1) r s1 with
      | (none, s2) => (none, s2)
      | (some re, s2) =>
        let e :=
          match op with
          | .andOp => andExpr le re
          | .orOp => orExpr le re
          | _ => xorExpr le re
        (some e, cacheNode v e s2)

/-- `LogicalOpsHelper::logicalOpToValue`.  An empty polynomial denotes
constant 0; a singleton zero-sentinel denotes constant 0; a singleton
all-ones sentinel denotes constant all-ones; a singleton one-hot mask denotes
the leaf `LeafValues[Log2_64(mask)]`; everything else is not simplified. -/
def logicalOpToValue (prog : Program) (s : BuilderState) (e : Poly) :
    Option Nat :=
  if hne : e = ∅ then some prog.zeroId
  else if e.card = 1 then
    let m := e.min' (Finset.nonempty_of_ne_empty hne)
    if m = ExprZero then some prog.zeroId
    else if m = ExprAllOne then some prog.allOnesId
    else if popcount m = 1 then
      some (s.leafValues.getD (log2_64 m) 0)
    else none
  else none

/-- `LogicalOpsHelper::simplify`.  Build the root node (initial fuel
`MaxDepth`, i.e. `Depth = 0`), reconstruct a value, return "no change"
(`nullptr`) if the builder failed, reconstruction failed, or the
reconstructed value is the root itself; otherwise bump
`NumComplexLogicalOpsSimplified` and return the new value.  The result is
`(replacement, final caches, final statistic counter)`. -/
def simplify (prog : Program) (cfg : Config) (root : Nat)
    (s : BuilderState) (counter : Nat) :
    Option Nat × BuilderState × Nat :=
  match getLogicalOpNode prog cfg cfg.maxDepth 0 root s with
  | (none, s') => (none, s', counter)
  | (some e, s') =>
    match logicalOpToValue prog s' e with
    | none => (none, s', counter)
    | some newRoot =>
      if newRoot = root then (none, s', counter)
      else (some newRoot, s', counter + 1)

/-! Concrete host-IR programs used to evaluate the model. -/

/-- Scenario S6: values `a`, `b`, `c` are the opaque leaves 1, 2, 3; value 4
is the all-ones constant (`~x` is `xor x, -1` in the IR); values 5-11 are
`5 = a & b`, `6 = a ^ c`, `7 = 5 | 6`, `8 = b & c`, `9 = 8 ^ -1`,
`10 = 9 & a`, and the root `11 = 7 ^ 10`, i.e.
`((a & b) | (a ^ c)) ^ (~(b & c) & a)`. -/
def progS6 : Program where
  kind v :=
    match v with
    | 1 => .otherVal
    | 2 => .otherVal
    | 3 => .otherVal
    | 4 => .constAllOnes
    | 5 => .binop .andOp 1 2
    | 6 => .binop .xorOp 1 3
    | 7 => .binop .orOp 5 6
    | 8 => .binop .andOp 2 3
    | 9 => .binop .xorOp 8 4
    | 10 => .binop .andOp 9 1
    | 11 => .binop .xorOp 7 10
    | _ => .constZero
  zeroId := 0
  allOnesId := 4

/-- A program with nine distinct opaque leaves 1-9.  Value 16 is a balanced
xor tree over leaves 1-8 (via 10-15), value 17 the root `16 ^ 9` (nine
distinct leaves, no cancellation), value 21 is `16 ^ 9` rebuilt as a distinct
value, value 20 the root `16 ^ 21` (which cancels to leaf 9), value 19 a
fresh opaque leaf, and value 18 the root `19 ^ 19`. -/
def progChains : Program where
  kind v :=
    match v with
    | 1 | 2 | 3 | 4 | 5 | 6 | 7 | 8 | 9 => .otherVal
    | 10 => .binop .xorOp 1 2
    | 11 => .binop .xorOp 3 4
    | 12 => .binop .xorOp 5 6
    | 13 => .binop .xorOp 7 8
    | 14 => .binop .xorOp 10 11
    | 15 => .binop .xorOp 12 13
    | 16 => .binop .xorOp 14 15
    | 17 => .binop .xorOp 16 9
    | 18 => .binop .xorOp 19 19
    | 19 => .otherVal
    | 20 => .binop .xorOp 16 21
    | 21 => .binop .xorOp 16 9
    | 100 => .constAllOnes
    | _ => .constZero
  zeroId := 0
  allOnesId := 100

/-- A complete binary AND tree with 64 distinct opaque leaves: internal
values 1-63 with `v = (2v) & (2v+1)`, opaque leaves 64-127, root 1 (depth 6).
Walking it with `MaxLogicOpLeafsToScan = 62` — a value the assertion in
`simplify` admits — runs the leaf table to 62 entries and then hands the
63rd and 64th distinct leaves the mask `1 << 62`, which is the reserved
zero sentinel. -/
def progWide : Program where
  kind v :=
    if v = 0 then .constZero
    else if v ≤ 63 then .binop .andOp (2 * v) (2 * v + 1)
    else if v ≤ 127 then .otherVal
    else if v = 200 then .constAllOnes
    else .constZero
  zeroId := 0
  allOnesId := 200

/-- The configuration `clc-max-logic-leafs = 62`, `clc-max-depth = 8`:
the largest leaf bound the assertion in `simplify` admits. -/
def wideConfig : Config := ⟨62, 8⟩

/-- A builder state with two tabled leaves, used to evaluate
`logicalOpToValue` on its own. -/
def twoLeafState : BuilderState :=
  { nodes := fun _ => none, leafSet := {5, 7}, leafValues := [5, 7] }

/-- A builder state whose node cache holds one entry, used to observe that
`simplify` does not reset the caches. -/
def oneNodeState : BuilderState :=
  { nodes := fun k => if k = 5 then some {1} else none,
    leafSet := {5}, leafValues := [5] }

/-- `u` is a value of the expression rooted at `v`: either `v` itself, or a
value of one of the operand expressions of a supported (and/or/xor) binary
operator — exactly the edges `visitBinOp` recurses through. -/
inductive Occurs (prog : Program) : Nat → Nat → Prop where
  | refl (v : Nat) : Occurs prog v v
  | left {v u : Nat} (op : LogicOp) (l r : Nat) :
      prog.kind v = .binop op l r → op ≠ .otherOp →
      Occurs prog l u → Occurs prog v u
  | right {v u : Nat} (op : LogicOp) (l r : Nat) :
      prog.kind v = .binop op l r → op ≠ .otherOp →
      Occurs prog r u → Occurs prog v u

/-- `v` is a value the builder treats as an opaque leaf that consumes a leaf
slot: a non-and/or/xor binary operator or any other value that is neither the
constant zero nor the constant all-ones. -/
def isLeafValue (prog : Program) (v : Nat) : Bool :=
  match prog.kind v with
  | .binop op _ _ => op == .otherOp
  | .constZero => false
  | .constAllOnes => false
  | .otherVal => true

/-- Well-formedness of a monomial mask with respect to a leaf table of
length `len`: the mask is one of the two sentinels, or a non-empty and-chain
over the assigned leaf bits. -/
def MaskWF (len m : Nat) : Prop :=
  m = ExprAllOne ∨ m = ExprZero ∨ (m ≠ 0 ∧ m < 2 ^ len)

/-- The builder only ever grows its caches: `s'` extends `s` when every
cached key of `s` is still cached in `s'`, the leaf set only gained members,
and the leaf table gained a (possibly empty) suffix. -/
def StateLE (s s' : BuilderState) : Prop :=
  (∀ k e, s.nodes k = some e → ∃ e2, s'.nodes k = some e2)
  ∧ s.leafSet ⊆ s'.leafSet
  ∧ ∃ t, s'.leafValues = s.leafValues ++ t

/-- Every opaque leaf reachable (through supported binary operators) from a
cached value is already in the leaf set.  This closure property is what makes
a successful walk record every opaque leaf of the expression. -/
def CacheClosed (prog : Program) (s : BuilderState) : Prop :=
  ∀ k, (∃ e, s.nodes k = some e) →
    ∀ u, Occurs prog k u → isLeafValue prog u = true → u ∈ s.leafSet

/-- The builder-state invariant maintained by a walk that started at `root`
on a fresh helper: the leaf set is the set of leaf-table entries; the leaf
table has at most 62 entries; the `i`-th table entry is cached with the
singleton polynomial of its leaf bit `1 << i`; every table entry is an
opaque leaf of the expression rooted at `root`; and every cached polynomial
holds only well-formed monomial masks. -/
structure Inv (prog : Program) (root : Nat) (s : BuilderState) : Prop where
  card_len : s.leafSet.card = s.leafValues.length
  len_le : s.leafValues.length ≤ 62
  mem_iff : ∀ v, v ∈ s.leafSet ↔ v ∈ s.leafValues
  leaf_cached : ∀ i, i < s.leafValues.length →
    s.nodes (s.leafValues.getD i 0) = some {2 ^ i}
  leaf_occ : ∀ v ∈ s.leafValues, Occurs prog root v ∧ isLeafValue prog v = true
  masks_wf : ∀ k e, s.nodes k = some e → ∀ m ∈ e, MaskWF s.leafValues.length m

end CLC

/-! # Theorems -/

namespace CLC

/-- Definitional tie between the standalone `visitBinOp` and the
binary-operator branch inlined in `getLogicalOpNode`. -/
theorem getLogicalOpNode_succ (prog : Program) (cfg : Config)
    (fuel depth v : Nat) (s : BuilderState) :
    getLogicalOpNode prog cfg (fuel + 1) depth v s =
      match s.nodes v with
      | some e => (some e, s)
      | none =>
        match prog.kind v with
        | .binop op l r => visitBinOp prog cfg fuel depth op v l r s
        | _ => visitLeafNode prog cfg v depth s := rfl

theorem land_two_pow_eq_zero {m i : Nat} (h : m < 2 ^ i) : m &&& 2 ^ i = 0 := by
  rw [Nat.and_two_pow, Nat.testBit_lt_two_pow h]
  simp

theorem exprZero_lt_allOne : ExprZero < ExprAllOne := by decide

theorem allOne_land_exprZero : ExprAllOne &&& ExprZero = 0 := by decide

theorem mulMask_comm (l r : Nat) : mulMask l r = mulMask r l := by
  unfold mulMask
  rw [Nat.lor_comm]

theorem mulMask_self {m : Nat} (h : m = ExprAllOne ∨ (m ≠ 0 ∧ m < ExprZero)) :
    mulMask m m = m := by
  rcases h with rfl | ⟨h0, hlt⟩
  · simp [mulMask]
  · have hlt63 : m < 2 ^ 63 := lt_trans hlt (by norm_num [ExprZero])
    simp only [mulMask, Nat.or_self]
    rw [if_neg]
    rintro ⟨-, hbit⟩
    exact hbit (land_two_pow_eq_zero hlt63)

/-- C6: for every polynomial `p`, `p + p = 0`: the XOR addition operator
(`LogicalExpr::operator+=`) applied to a polynomial and itself toggles every
monomial out again, yielding the empty set of monomials, which
`logicalOpToValue` maps to the constant 0 of the root's type. -/
theorem c6_add_self_cancels (p : Poly) :
    addExpr p p = ∅ ∧
      ∀ (prog : Program) (s : BuilderState),
        logicalOpToValue prog s (addExpr p p) = some prog.zeroId := by
  have h : addExpr p p = ∅ := by simp [addExpr]
  refine ⟨h, fun prog s => ?_⟩
  rw [h]
  simp [logicalOpToValue]

/-- C5: for every polynomial `p` whose monomials are within leaf bounds
(each mask is the all-ones sentinel or a non-empty conjunction of leaf
bits), `p * p = p`: the ring-multiplication operator
(`LogicalExpr::operator*=`) applied to a polynomial and itself returns the
same monomial set — Boolean-ring idempotence of AND. -/
theorem c5_mul_self_idempotent (p : Poly)
    (hp : ∀ m ∈ p, m = ExprAllOne ∨ (m ≠ 0 ∧ m < ExprZero)) :
    mulExpr p p = p := by
  have hzero : ∀ m ∈ p, m &&& ExprZero = 0 := by
    intro m hm
    rcases hp m hm with rfl | ⟨-, hlt⟩
    · exact allOne_land_exprZero
    · exact land_two_pow_eq_zero hlt
  have hfil : p.filter (fun l => l &&& ExprZero = 0) = p :=
    Finset.filter_eq_self.mpr hzero
  have hpairs : mulPairs p p = p ×ˢ p := by
    unfold mulPairs
    rw [hfil]
  have hdiag : ∀ m ∈ p, mulMask m m = m := fun m hm => mulMask_self (hp m hm)
  have key : ∀ m : Nat,
      ((p ×ˢ p).filter fun x => mulMask x.1 x.2 = m).card % 2
        = if m ∈ p then 1 else 0 := by
    intro m
    set T := (p ×ˢ p).filter fun x => mulMask x.1 x.2 = m with hT
    have hsplit :
        (T.filter fun x => x.1 = x.2).card
          + (T.filter fun x => ¬x.1 = x.2).card = T.card :=
      Finset.filter_card_add_filter_neg_card_eq_card _
    have hmemT : ∀ x : Nat × Nat,
        x ∈ T ↔ x.1 ∈ p ∧ x.2 ∈ p ∧ mulMask x.1 x.2 = m := by
      intro x
      simp [hT, Finset.mem_filter, Finset.mem_product, and_assoc]
    have hdiagcard :
        (T.filter fun x => x.1 = x.2).card = if m ∈ p then 1 else 0 := by
      by_cases hm : m ∈ p
      · rw [if_pos hm]
        have heq : T.filter (fun x => x.1 = x.2) = {(m, m)} := by
          ext x
          simp only [Finset.mem_filter, Finset.mem_singleton, hmemT]
          constructor
          · rintro ⟨⟨h1, h2, h3⟩, h4⟩
            obtain ⟨a, b⟩ := x
            simp only at h1 h2 h3 h4
            subst h4
            rw [hdiag a h1] at h3
            subst h3
            rfl
          · rintro rfl
            exact ⟨⟨hm, hm, hdiag m hm⟩, rfl⟩
        rw [heq, Finset.card_singleton]
      · rw [if_neg hm, Finset.card_eq_zero]
        ext x
        simp only [Finset.mem_filter, Finset.not_mem_empty, iff_false, hmemT]
        rintro ⟨⟨h1, h2, h3⟩, h4⟩
        obtain ⟨a, b⟩ := x
        simp only at h1 h2 h3 h4
        subst h4
        rw [hdiag a h1] at h3
        exact hm (h3 ▸ h1)
    have hoffeven : (T.filter fun x => ¬x.1 = x.2).card % 2 = 0 := by
      have hz : (((T.filter fun x => ¬x.1 = x.2).card : Nat) : ZMod 2) = 0 := by
        rw [Finset.card_eq_sum_ones]
        push_cast
        refine Finset.sum_involution (fun x _ => (x.2, x.1)) ?_ ?_ ?_ ?_
        · intro a _
          decide
        · intro a ha _
          rw [Finset.mem_filter] at ha
          obtain ⟨a1, a2⟩ := a
          intro hcon
          rw [Prod.mk.injEq] at hcon
          exact ha.2 hcon.2
        · intro a ha
          rw [Finset.mem_filter] at ha ⊢
          obtain ⟨haT, hane⟩ := ha
          rw [hmemT] at haT ⊢
          obtain ⟨h1, h2, h3⟩ := haT
          refine ⟨⟨h2, h1, ?_⟩, ?_⟩
          · rw [mulMask_comm]
            exact h3
          · simp only
            intro hcon
            exact hane hcon.symm
        · intro a _
          rfl
      rw [ZMod.natCast_zmod_eq_zero_iff_dvd] at hz
      omega
    by_cases hm : m ∈ p
    · rw [if_pos hm] at hdiagcard ⊢
      omega
    · rw [if_neg hm] at hdiagcard ⊢
      omega
  ext m
  simp only [mulExpr, hpairs, Finset.mem_filter, Finset.mem_image, key]
  constructor
  · rintro ⟨-, hpar⟩
    by_cases hm : m ∈ p
    · exact hm
    · rw [if_neg hm] at hpar
      exact absurd hpar one_ne_zero.symm
  · intro hm
    refine ⟨⟨(m, m), Finset.mem_product.mpr ⟨hm, hm⟩, hdiag m hm⟩, ?_⟩
    rw [if_pos hm]

/-- C5 witness: the two-monomial polynomial `{a * b, 1}` (mask 3 together
with the all-ones sentinel) is within leaf bounds and is fixed by
multiplication with itself. -/
theorem c5_mul_self_idempotent_witness :
    (∀ m ∈ ({3, ExprAllOne} : Poly), m = ExprAllOne ∨ (m ≠ 0 ∧ m < ExprZero))
    ∧ mulExpr {3, ExprAllOne} {3, ExprAllOne} = {3, ExprAllOne} :=
  ⟨by decide, c5_mul_self_idempotent {3, ExprAllOne} (by decide)⟩

theorem range_filter_two_pow {i n : Nat} (h : i < n) :
    ((List.range n).filter fun j => (2 ^ i : Nat).testBit j) = [i] := by
  induction n with
  | zero => omega
  | succ k ih =>
    rw [List.range_succ, List.filter_append]
    by_cases hik : i = k
    · subst hik
      have h1 : (List.range i).filter (fun j => (2 ^ i : Nat).testBit j) = [] := by
        rw [List.filter_eq_nil_iff]
        intro a ha
        rw [List.mem_range] at ha
        rw [Nat.testBit_two_pow]
        simp
        omega
      rw [h1]
      simp [List.filter, Nat.testBit_two_pow_self]
    · have hik' : i < k := by omega
      rw [ih hik']
      have hbit : (2 ^ i : Nat).testBit k = false := Nat.testBit_two_pow_of_ne hik
      simp [List.filter, hbit]

theorem popcount_two_pow {i : Nat} (h : i < 64) : popcount (2 ^ i) = 1 := by
  unfold popcount
  rw [range_filter_two_pow h]
  rfl

theorem log2_64_two_pow {i : Nat} (h : i < 64) : log2_64 (2 ^ i) = i := by
  unfold log2_64
  rw [range_filter_two_pow h]
  simp [List.foldr]

theorem popcount_eq_one {m : Nat} (hm : m < 2 ^ 64) (h : popcount m = 1) :
    ∃ i, i < 64 ∧ m = 2 ^ i := by
  unfold popcount at h
  obtain ⟨i, hi⟩ := List.length_eq_one.mp h
  have hmem : ∀ j, (j ∈ (List.range 64).filter fun k => m.testBit k) ↔ j = i := by
    intro j
    rw [hi]
    simp
  have hi64 : i < 64 := by
    have := (hmem i).mpr rfl
    rw [List.mem_filter, List.mem_range] at this
    exact this.1
  refine ⟨i, hi64, ?_⟩
  apply Nat.eq_of_testBit_eq
  intro j
  rw [Nat.testBit_two_pow]
  by_cases hj : j < 64
  · have hch : (j ∈ (List.range 64).filter fun k => m.testBit k) ↔ j = i := hmem j
    rw [List.mem_filter, List.mem_range] at hch
    by_cases hij : i = j
    · subst hij
      have : m.testBit i = true := (hch.mpr rfl).2
      rw [this]
      simp
    · have : ¬m.testBit j = true := fun hb => hij ((hch.mp ⟨hj, hb⟩).symm)
      rw [Bool.not_eq_true] at this
      rw [this]
      simp [hij]
  · have hjb : m.testBit j = false :=
      Nat.testBit_lt_two_pow
        (lt_of_lt_of_le hm (Nat.pow_le_pow_right (by norm_num) (by omega)))
    rw [hjb]
    simp
    omega

theorem two_pow_ne_exprZero {i : Nat} (h : i ≠ 62) : (2 ^ i : Nat) ≠ ExprZero := by
  intro hc
  exact h (Nat.pow_right_injective (by norm_num) hc)

theorem two_pow_ne_allOne {i : Nat} (h : i ≠ 63) : (2 ^ i : Nat) ≠ ExprAllOne := by
  intro hc
  exact h (Nat.pow_right_injective (by norm_num) hc)

/-- C2: `logicalOpToValue` returns the constant 0 of the node's type when
the polynomial is empty or the singleton zero-sentinel mask; the constant
all-ones when it is the singleton all-ones sentinel mask; the leaf value
stored at index `log2(mask)` when it is a singleton one-hot non-sentinel
mask; and "no simplification" in every other case. -/
theorem c2_reconstruction (prog : Program) (s : BuilderState) (e : Poly) :
    (e = ∅ → logicalOpToValue prog s e = some prog.zeroId)
    ∧ (e = {ExprZero} → logicalOpToValue prog s e = some prog.zeroId)
    ∧ (e = {ExprAllOne} → logicalOpToValue prog s e = some prog.allOnesId)
    ∧ (∀ i, i < 64 → i ≠ 62 → i ≠ 63 → e = {2 ^ i} →
        logicalOpToValue prog s e = some (s.leafValues.getD i 0))
    ∧ (e ≠ ∅ →
        (∀ m, e = {m} → m ≠ ExprZero ∧ m ≠ ExprAllOne ∧ popcount m ≠ 1) →
        logicalOpToValue prog s e = none) := by
  refine ⟨?_, ?_, ?_, ?_, ?_⟩
  · rintro rfl
    simp [logicalOpToValue]
  · rintro rfl
    rw [logicalOpToValue, dif_neg (Finset.singleton_ne_empty _)]
    simp [Finset.min'_singleton]
  · rintro rfl
    rw [logicalOpToValue, dif_neg (Finset.singleton_ne_empty _)]
    have hne : ExprAllOne ≠ ExprZero := by decide
    simp [Finset.min'_singleton, hne]
  · rintro i h64 h62 h63 rfl
    rw [logicalOpToValue, dif_neg (Finset.singleton_ne_empty _)]
    simp [Finset.min'_singleton, two_pow_ne_exprZero h62, two_pow_ne_allOne h63,
      popcount_two_pow h64, log2_64_two_pow h64]
  · intro hne hother
    rw [logicalOpToValue, dif_neg hne]
    by_cases hc : e.card = 1
    · obtain ⟨m, rfl⟩ := Finset.card_eq_one.mp hc
      obtain ⟨h1, h2, h3⟩ := hother m rfl
      simp [hc, Finset.min'_singleton, h1, h2, h3]
    · simp [hc]

/-- C2 witness: evaluating `logicalOpToValue` on the singleton one-hot mask
`{2}` over a two-entry leaf table returns the leaf at index `log2 2 = 1`. -/
theorem c2_reconstruction_witness :
    (({2} : Poly) = {2 ^ 1} ∧ (1 : Nat) < 64 ∧ (1 : Nat) ≠ 62 ∧ (1 : Nat) ≠ 63)
    ∧ logicalOpToValue progS6 twoLeafState {2} = some 7 :=
  ⟨⟨by decide, by decide, by decide, by decide⟩,
    (c2_reconstruction progS6 twoLeafState {2}).2.2.2.1 1 (by decide) (by decide)
      (by decide) (by decide)⟩

/-- C1: `simplify` returns "no change" exactly when the builder returns
unsupported, or reconstruction returns "no simplification", or the
reconstructed value equals the root; in every other case it returns the
reconstructed value and increments `NumComplexLogicalOpsSimplified` exactly
once — in particular, it never returns a value equal to its input. -/
theorem c1_driver (prog : Program) (cfg : Config) (root : Nat)
    (s : BuilderState) (c : Nat) :
    ((simplify prog cfg root s c).1 = none ↔
      ((getLogicalOpNode prog cfg cfg.maxDepth 0 root s).1 = none
        ∨ (∃ e, (getLogicalOpNode prog cfg cfg.maxDepth 0 root s).1 = some e
            ∧ logicalOpToValue prog
                (getLogicalOpNode prog cfg cfg.maxDepth 0 root s).2 e = none)
        ∨ (∃ e, (getLogicalOpNode prog cfg cfg.maxDepth 0 root s).1 = some e
            ∧ logicalOpToValue prog
                (getLogicalOpNode prog cfg cfg.maxDepth 0 root s).2 e = some root)))
    ∧ (∀ v, (simplify prog cfg root s c).1 = some v →
        (∃ e, (getLogicalOpNode prog cfg cfg.maxDepth 0 root s).1 = some e
          ∧ logicalOpToValue prog
              (getLogicalOpNode prog cfg cfg.maxDepth 0 root s).2 e = some v)
        ∧ (simplify prog cfg root s c).2.2 = c + 1 ∧ v ≠ root)
    ∧ ((simplify prog cfg root s c).1 = none →
        (simplify prog cfg root s c).2.2 = c) := by
  rcases hb : getLogicalOpNode prog cfg cfg.maxDepth 0 root s with ⟨r, s'⟩
  cases r with
  | none => simp [simplify, hb]
  | some e =>
    rcases hv : logicalOpToValue prog s' e with _ | v
    · simp [simplify, hb, hv]
    · by_cases hroot : v = root
      · subst hroot
        simp [simplify, hb, hv]
      · simp [simplify, hb, hv, hroot]

/-- C1 witness: on the program whose root 18 is `x ^ x`, `simplify` returns
the zero constant (value 0), which is reconstructed, counted once, and
different from the root. -/
theorem c1_driver_witness :
    (simplify progChains defaultConfig 18 emptyState 0).1 = some 0
    ∧ ((∃ e,
          (getLogicalOpNode progChains defaultConfig defaultConfig.maxDepth 0 18
              emptyState).1 = some e
          ∧ logicalOpToValue progChains
              (getLogicalOpNode progChains defaultConfig defaultConfig.maxDepth 0 18
                emptyState).2 e = some 0)
        ∧ (simplify progChains defaultConfig 18 emptyState 0).2.2 = 0 + 1
        ∧ (0 : Nat) ≠ 18) :=
  ⟨by decide, (c1_driver progChains defaultConfig 18 emptyState 0).2.1 0 (by decide)⟩

/-- C8: building `((a & b) | (a ^ c)) ^ (~(b & c) & a)` over the distinct
leaves `a`, `b`, `c` (values 1, 2, 3, discovered in this order and assigned
bits 0, 1, 2) yields the singleton polynomial `{0b100}`, and `simplify`
returns leaf `c` (value 3). -/
theorem c8_scenario_s6 :
    (getLogicalOpNode progS6 defaultConfig defaultConfig.maxDepth 0 11
        emptyState).1 = some {4}
    ∧ (simplify progS6 defaultConfig 11 emptyState 0).2.1.leafValues = [1, 2, 3]
    ∧ (simplify progS6 defaultConfig 11 emptyState 0).1 = some 3 :=
  ⟨by decide, by decide, by decide⟩

/-- C7 counterexample: after `simplify` runs on root 17 (nine distinct
leaves, no reduction), the helper's caches are not empty, and a second
`simplify` call on the same helper for root 18 (`x ^ x`, a fresh leaf)
returns "no change" — while the same call on a fresh helper simplifies the
root to the zero constant.  The caches are therefore not created anew at the
start of every `simplify` call, and a second call does not behave as if it
ran on a fresh helper. -/
theorem c7_counterexample :
    ((simplify progChains defaultConfig 17 emptyState 0).2.1.leafSet ≠ ∅)
    ∧ ((simplify progChains defaultConfig 17 emptyState 0).2.1.nodes 16 ≠ none)
    ∧ ((simplify progChains defaultConfig 18
          (simplify progChains defaultConfig 17 emptyState 0).2.1 0).1 = none)
    ∧ ((simplify progChains defaultConfig 18 emptyState 0).1
        = some progChains.zeroId) :=
  ⟨by decide, by decide, by decide, by decide⟩

/-- C4: with `MaxLogicOpLeafsToScan = 62` — a configuration the assertion
`MaxLogicOpLeafsToScan <= 62` in `simplify` admits — the 63rd distinct
opaque leaf (value 126, which occurs in the 64-leaf AND tree of `progWide`)
is assigned the monomial mask `1 << 62`, i.e. the reserved zero sentinel
`ExprZero`, and the whole 64-leaf AND is consequently miscompiled to the
constant 0. -/
theorem c4_sentinel_leak :
    progWide.kind 126 = .otherVal
    ∧ Occurs progWide 1 126
    ∧ wideConfig.maxLeaves ≤ 62
    ∧ (simplify progWide wideConfig 1 emptyState 0).2.1.nodes 126
        = some {ExprZero}
    ∧ (simplify progWide wideConfig 1 emptyState 0).1
        = some progWide.zeroId :=
  ⟨by decide,
    Occurs.right .andOp 2 3 (by decide) (by decide)
      (Occurs.right .andOp 6 7 (by decide) (by decide)
        (Occurs.right .andOp 14 15 (by decide) (by decide)
          (Occurs.right .andOp 30 31 (by decide) (by decide)
            (Occurs.right .andOp 62 63 (by decide) (by decide)
              (Occurs.left .andOp 126 127 (by decide) (by decide)
                (Occurs.refl 126)))))),
    by decide, by decide, by decide⟩

theorem occurs_trans {prog : Program} {a b c : Nat} :
    Occurs prog a b → Occurs prog b c → Occurs prog a c := by
  intro h1
  induction h1 with
  | refl v => exact id
  | left op l r hk hop _ ih =>
    intro h2
    exact Occurs.left op l r hk hop (ih h2)
  | right op l r hk hop _ ih =>
    intro h2
    exact Occurs.right op l r hk hop (ih h2)

theorem occurs_inv {prog : Program} {v u : Nat} (h : Occurs prog v u) :
    u = v ∨ ∃ op l r, prog.kind v = .binop op l r ∧ op ≠ .otherOp
      ∧ (Occurs prog l u ∨ Occurs prog r u) := by
  cases h with
  | refl => exact Or.inl rfl
  | left op l r hk hop h' => exact Or.inr ⟨op, l, r, hk, hop, Or.inl h'⟩
  | right op l r hk hop h' => exact Or.inr ⟨op, l, r, hk, hop, Or.inr h'⟩

theorem cacheNode_nodes (v : Nat) (e : Poly) (s : BuilderState) (k : Nat) :
    (cacheNode v e s).nodes k = if k = v then some e else s.nodes k := rfl

theorem cacheNode_leafSet (v : Nat) (e : Poly) (s : BuilderState) :
    (cacheNode v e s).leafSet = s.leafSet := rfl

theorem cacheNode_leafValues (v : Nat) (e : Poly) (s : BuilderState) :
    (cacheNode v e s).leafValues = s.leafValues := rfl

theorem pushLeaf_nodes (v ev : Nat) (s : BuilderState) :
    (pushLeaf v ev s).nodes = s.nodes := by
  unfold pushLeaf
  split <;> rfl

theorem stateLE_refl (s : BuilderState) : StateLE s s :=
  ⟨fun _ e h => ⟨e, h⟩, Finset.Subset.refl _, ⟨[], (List.append_nil _).symm⟩⟩

theorem stateLE_trans {a b c : BuilderState} (h1 : StateLE a b)
    (h2 : StateLE b c) : StateLE a c := by
  obtain ⟨hn1, hs1, t1, ht1⟩ := h1
  obtain ⟨hn2, hs2, t2, ht2⟩ := h2
  refine ⟨?_, hs1.trans hs2, t1 ++ t2, ?_⟩
  · intro k e h
    obtain ⟨e2, h2'⟩ := hn1 k e h
    exact hn2 k e2 h2'
  · rw [ht2, ht1, List.append_assoc]

theorem stateLE_cacheNode (v : Nat) (e : Poly) (s : BuilderState) :
    StateLE s (cacheNode v e s) := by
  refine ⟨?_, Finset.Subset.refl _, ⟨[], (List.append_nil _).symm⟩⟩
  intro k e' h
  rw [cacheNode_nodes]
  by_cases hk : k = v
  · exact ⟨e, by rw [if_pos hk]⟩
  · exact ⟨e', by rw [if_neg hk]; exact h⟩

theorem stateLE_pushLeaf (v ev : Nat) (s : BuilderState) :
    StateLE s (pushLeaf v ev s) := by
  unfold pushLeaf
  split
  · exact ⟨fun k e h => ⟨e, h⟩, Finset.subset_insert _ _, ⟨[v], rfl⟩⟩
  · exact stateLE_refl s

theorem visitLeafNode_le (prog : Program) (cfg : Config) (v depth : Nat)
    (s : BuilderState) :
    StateLE s (visitLeafNode prog cfg v depth s).2
    ∧ (∀ e, (visitLeafNode prog cfg v depth s).1 = some e →
        (visitLeafNode prog cfg v depth s).2.nodes v = some e) := by
  unfold visitLeafNode
  split
  · exact ⟨stateLE_refl s, fun e h => nomatch h⟩
  · refine ⟨stateLE_trans (stateLE_pushLeaf v _ s) (stateLE_cacheNode v _ _), ?_⟩
    intro e h
    rw [cacheNode_nodes, if_pos rfl]
    exact h

theorem getLogicalOpNode_le (prog : Program) (cfg : Config) :
    ∀ fuel depth v (s : BuilderState),
      StateLE s (getLogicalOpNode prog cfg fuel depth v s).2
      ∧ (∀ e, (getLogicalOpNode prog cfg fuel depth v s).1 = some e →
          (getLogicalOpNode prog cfg fuel depth v s).2.nodes v = some e) := by
  intro fuel
  induction fuel with
  | zero =>
    intro depth v s
    exact ⟨stateLE_refl s, fun e h => nomatch h⟩
  | succ fuel ih =>
    intro depth v s
    cases hn : s.nodes v with
    | some e =>
      simp only [getLogicalOpNode_succ, hn]
      refine ⟨stateLE_refl s, ?_⟩
      intro e' h
      exact h
    | none =>
      cases hk : prog.kind v with
      | binop op l r =>
        simp only [getLogicalOpNode_succ, hn, hk]
        unfold visitBinOp
        by_cases hop : op = .otherOp
        · rw [if_pos hop]
          exact visitLeafNode_le prog cfg v depth s
        · rw [if_neg hop]
          split
          next s1 heq =>
            have ihl := ih (depth + 1) l s
            rw [heq] at ihl
            exact ⟨ihl.1, fun e h => nomatch h⟩
          next le s1 heq =>
            have ihl := ih (depth + 1) l s
            rw [heq] at ihl
            split
            next s2 heq2 =>
              have ihr := ih (depth + 1) r s1
              rw [heq2] at ihr
              exact ⟨stateLE_trans ihl.1 ihr.1, fun e h => nomatch h⟩
            next re s2 heq2 =>
              have ihr := ih (depth + 1) r s1
              rw [heq2] at ihr
              refine ⟨stateLE_trans (stateLE_trans ihl.1 ihr.1)
                (stateLE_cacheNode v _ s2), ?_⟩
              intro e h
              show (cacheNode v _ s2).nodes v = some e
              rw [cacheNode_nodes, if_pos rfl]
              exact h
      | constZero =>
        simp only [getLogicalOpNode_succ, hn, hk]
        exact visitLeafNode_le prog cfg v depth s
      | constAllOnes =>
        simp only [getLogicalOpNode_succ, hn, hk]
        exact visitLeafNode_le prog cfg v depth s
      | otherVal =>
        simp only [getLogicalOpNode_succ, hn, hk]
        exact visitLeafNode_le prog cfg v depth s

theorem simplify_state (prog : Program) (cfg : Config) (root : Nat)
    (s : BuilderState) (c : Nat) :
    (simplify prog cfg root s c).2.1
      = (getLogicalOpNode prog cfg cfg.maxDepth 0 root s).2 := by
  rcases hb : getLogicalOpNode prog cfg cfg.maxDepth 0 root s with ⟨r, s'⟩
  cases r with
  | none => simp [simplify, hb]
  | some e =>
    rcases hv : logicalOpToValue prog s' e with _ | w
    · simp [simplify, hb, hv]
    · by_cases hroot : w = root <;> simp [simplify, hb, hv, hroot]

/-- C7 amended: `simplify` never resets the helper's caches — the caches of
the state it returns extend the caches it was given, so a second `simplify`
call on the same helper observes everything the first call cached; the three
caches are emptied together only by `LogicalOpsHelper::clear`, which the
destructor calls. -/
theorem c7_amended_persistence (prog : Program) (cfg : Config) (root : Nat)
    (s : BuilderState) (c : Nat) :
    StateLE s (simplify prog cfg root s c).2.1 ∧ clearCaches s = emptyState := by
  refine ⟨?_, rfl⟩
  rw [simplify_state]
  exact (getLogicalOpNode_le prog cfg cfg.maxDepth 0 root s).1

/-- C7 amended witness: a node cached before a `simplify` call is still
cached after it. -/
theorem c7_amended_persistence_witness :
    oneNodeState.nodes 5 = some {1}
    ∧ (∃ e2,
        (simplify progChains defaultConfig 17 oneNodeState 0).2.1.nodes 5
          = some e2) :=
  ⟨by decide,
    (c7_amended_persistence progChains defaultConfig 17 oneNodeState 0).1.1 5 {1}
      (by decide)⟩

theorem exprAllOne_eq : ExprAllOne = 2 ^ 63 := rfl

theorem lor_ne_zero {l r : Nat} (hl : l ≠ 0) : l ||| r ≠ 0 := by
  intro h
  obtain ⟨i, hi⟩ := Nat.ne_zero_implies_bit_true hl
  have := congrArg (fun n => Nat.testBit n i) h
  simp [Nat.testBit_lor, hi] at this

theorem lor_allOne_clear {r : Nat} (hr : r < 2 ^ 63) :
    (ExprAllOne ||| r) &&& (ExprAllOne - 1) = r := by
  apply Nat.eq_of_testBit_eq
  intro j
  rw [exprAllOne_eq]
  rw [Nat.testBit_land, Nat.testBit_lor, Nat.testBit_two_pow]
  have hsub : (2 ^ 63 - 1 : Nat).testBit j = decide (j < 63) :=
    Nat.testBit_two_pow_sub_one 63 j
  rw [hsub]
  by_cases hj : j < 63
  · simp [hj]
    intro h
    omega
  · have hrf : r.testBit j = false :=
      Nat.testBit_lt_two_pow
        (lt_of_lt_of_le hr (Nat.pow_le_pow_right (by norm_num) (by omega)))
    simp [hj, hrf]

theorem lor_allOne_ne {r : Nat} (hr0 : r ≠ 0) (hr : r < 2 ^ 63) :
    ExprAllOne ||| r ≠ ExprAllOne := by
  intro h
  apply hr0
  have h1 := lor_allOne_clear hr
  rw [h] at h1
  rw [← h1]
  decide

theorem lor_allOne_bit (r : Nat) : (ExprAllOne ||| r) &&& ExprAllOne ≠ 0 := by
  rw [exprAllOne_eq, Nat.and_two_pow, Nat.testBit_lor, Nat.testBit_two_pow_self]
  simp

theorem mulMask_allOne_left {r : Nat} (hr0 : r ≠ 0) (hr : r < 2 ^ 63) :
    mulMask ExprAllOne r = r := by
  unfold mulMask
  rw [if_pos ⟨lor_allOne_ne hr0 hr, lor_allOne_bit r⟩]
  exact lor_allOne_clear hr

theorem mulMask_pure {len l r : Nat} (hlen : len ≤ 62)
    (hl : l < 2 ^ len) (hr : r < 2 ^ len) : mulMask l r = l ||| r := by
  unfold mulMask
  rw [if_neg]
  rintro ⟨-, hbit⟩
  apply hbit
  have hor : l ||| r < 2 ^ 63 :=
    lt_of_lt_of_le (Nat.or_lt_two_pow hl hr)
      (Nat.pow_le_pow_right (by norm_num) (by omega))
  rw [exprAllOne_eq]
  exact land_two_pow_eq_zero hor

theorem maskWF_mono {len len' m : Nat} (h : len ≤ len') (hm : MaskWF len m) :
    MaskWF len' m := by
  rcases hm with rfl | rfl | ⟨h0, hlt⟩
  · exact Or.inl rfl
  · exact Or.inr (Or.inl rfl)
  · exact Or.inr (Or.inr ⟨h0,
      lt_of_lt_of_le hlt (Nat.pow_le_pow_right (by norm_num) h)⟩)

theorem addExpr_mem {p q : Poly} {m : Nat} (h : m ∈ addExpr p q) :
    m ∈ p ∨ m ∈ q := by
  unfold addExpr at h
  rcases Finset.mem_union.mp h with h | h
  · exact Or.inl (Finset.mem_sdiff.mp h).1
  · exact Or.inr (Finset.mem_sdiff.mp h).1

theorem mulExpr_mem {p q : Poly} {m : Nat} (h : m ∈ mulExpr p q) :
    ∃ l ∈ p, ∃ r ∈ q,
      l &&& ExprZero = 0 ∧ r &&& ExprZero = 0 ∧ m = mulMask l r := by
  unfold mulExpr at h
  obtain ⟨hin, -⟩ := Finset.mem_filter.mp h
  obtain ⟨x, hx, hxm⟩ := Finset.mem_image.mp hin
  unfold mulPairs at hx
  obtain ⟨hx1, hx2⟩ := Finset.mem_product.mp hx
  obtain ⟨hl, hlz⟩ := Finset.mem_filter.mp hx1
  obtain ⟨hr, hrz⟩ := Finset.mem_filter.mp hx2
  exact ⟨x.1, hl, x.2, hr, hlz, hrz, hxm.symm⟩

theorem mulMask_wf {len l r : Nat} (hlen : len ≤ 62)
    (hl : MaskWF len l) (hr : MaskWF len r)
    (hlz : l &&& ExprZero = 0) (hrz : r &&& ExprZero = 0) :
    MaskWF len (mulMask l r) := by
  have hzz : (ExprZero &&& ExprZero : Nat) ≠ 0 := by decide
  have h62 : (2 : Nat) ^ len ≤ 2 ^ 62 := Nat.pow_le_pow_right (by norm_num) hlen
  have h63 : (2 : Nat) ^ 62 < 2 ^ 63 := by norm_num
  rcases hl with rfl | rfl | ⟨hl0, hllt⟩
  · rcases hr with rfl | rfl | ⟨hr0, hrlt⟩
    · left
      simp [mulMask]
    · exact absurd hrz hzz
    · right; right
      rw [mulMask_allOne_left hr0 (lt_of_lt_of_le hrlt (le_trans h62 (le_of_lt h63)))]
      exact ⟨hr0, hrlt⟩
  · exact absurd hlz hzz
  · rcases hr with rfl | rfl | ⟨hr0, hrlt⟩
    · right; right
      rw [mulMask_comm,
        mulMask_allOne_left hl0 (lt_of_lt_of_le hllt (le_trans h62 (le_of_lt h63)))]
      exact ⟨hl0, hllt⟩
    · exact absurd hrz hzz
    · right; right
      rw [mulMask_pure hlen hllt hrlt]
      exact ⟨lor_ne_zero hl0, Nat.or_lt_two_pow hllt hrlt⟩

theorem mulExpr_wf {len : Nat} {p q : Poly} (hlen : len ≤ 62)
    (hp : ∀ m ∈ p, MaskWF len m) (hq : ∀ m ∈ q, MaskWF len m) :
    ∀ m ∈ mulExpr p q, MaskWF len m := by
  intro m hm
  obtain ⟨l, hl, r, hr, hlz, hrz, rfl⟩ := mulExpr_mem hm
  exact mulMask_wf hlen (hp l hl) (hq r hr) hlz hrz

theorem addExpr_wf {len : Nat} {p q : Poly}
    (hp : ∀ m ∈ p, MaskWF len m) (hq : ∀ m ∈ q, MaskWF len m) :
    ∀ m ∈ addExpr p q, MaskWF len m := by
  intro m hm
  rcases addExpr_mem hm with h | h
  · exact hp m h
  · exact hq m h

theorem binExpr_wf {len : Nat} {p q : Poly} (op : LogicOp) (hlen : len ≤ 62)
    (hp : ∀ m ∈ p, MaskWF len m) (hq : ∀ m ∈ q, MaskWF len m) :
    ∀ m ∈ (match op with
        | .andOp => andExpr p q
        | .orOp => orExpr p q
        | _ => xorExpr p q), MaskWF len m := by
  cases op with
  | andOp => exact mulExpr_wf hlen hp hq
  | orOp =>
    exact addExpr_wf (addExpr_wf (mulExpr_wf hlen hp hq) hp) hq
  | xorOp => exact addExpr_wf hp hq
  | otherOp => exact addExpr_wf hp hq

theorem getD_append_left {l l2 : List Nat} {i : Nat} (h : i < l.length) :
    (l ++ l2).getD i 0 = l.getD i 0 := by
  simp [List.getD_eq_getElem?_getD, List.getElem?_append_left h]

theorem getD_append_length {l : List Nat} {a : Nat} :
    (l ++ [a]).getD l.length 0 = a := by
  simp [List.getD_eq_getElem?_getD, List.getElem?_append_right (le_refl l.length)]

theorem getD_mem {l : List Nat} {i : Nat} (h : i < l.length) : l.getD i 0 ∈ l := by
  rw [List.getD_eq_getElem?_getD, List.getElem?_eq_getElem h]
  exact List.getElem_mem h

theorem mem_getD {l : List Nat} {a : Nat} (h : a ∈ l) :
    ∃ i, i < l.length ∧ l.getD i 0 = a := by
  obtain ⟨i, hi, hv⟩ := List.mem_iff_getElem.mp h
  refine ⟨i, hi, ?_⟩
  rw [List.getD_eq_getElem?_getD, List.getElem?_eq_getElem hi]
  exact hv

theorem emptyState_inv (prog : Program) (root : Nat) : Inv prog root emptyState := by
  refine ⟨by simp [emptyState], by simp [emptyState], ?_, ?_, ?_, ?_⟩
  · intro v
    simp [emptyState]
  · intro i hi
    simp [emptyState] at hi
  · intro v hv
    simp [emptyState] at hv
  · intro k e he
    simp [emptyState] at he

theorem cacheNode_inv {prog : Program} {root : Nat} {s : BuilderState}
    {v : Nat} {e : Poly} (hInv : Inv prog root s) (hnm : v ∉ s.leafValues)
    (hmasks : ∀ m ∈ e, MaskWF s.leafValues.length m) :
    Inv prog root (cacheNode v e s) := by
  refine ⟨hInv.card_len, hInv.len_le, hInv.mem_iff, ?_, hInv.leaf_occ, ?_⟩
  · intro i hi
    show (cacheNode v e s).nodes (s.leafValues.getD i 0) = some {2 ^ i}
    rw [cacheNode_nodes, if_neg]
    · exact hInv.leaf_cached i hi
    · intro hEq
      exact hnm (hEq ▸ getD_mem hi)
  · intro k e' he' m hm
    rw [cacheNode_nodes] at he'
    show MaskWF s.leafValues.length m
    by_cases hkv : k = v
    · rw [if_pos hkv] at he'
      injection he' with h
      exact hmasks m (h ▸ hm)
    · rw [if_neg hkv] at he'
      exact hInv.masks_wf k e' he' m hm

theorem leafMask_cases (prog : Program) (v card : Nat) :
    leafMask prog v card = 2 ^ card
    ∨ (leafMask prog v card = ExprZero ∧ prog.kind v = .constZero)
    ∨ (leafMask prog v card = ExprAllOne ∧ prog.kind v = .constAllOnes) := by
  unfold leafMask
  cases h : prog.kind v
  case constZero => exact Or.inr (Or.inl ⟨rfl, rfl⟩)
  case constAllOnes => exact Or.inr (Or.inr ⟨rfl, rfl⟩)
  all_goals exact Or.inl rfl

theorem isLeafValue_of_push {prog : Program} {v : Nat}
    (hkind : ∀ op l r, prog.kind v = .binop op l r → op = .otherOp)
    (hk0 : prog.kind v ≠ .constZero) (hk1 : prog.kind v ≠ .constAllOnes) :
    isLeafValue prog v = true := by
  unfold isLeafValue
  cases h : prog.kind v
  case binop op l r => simp [hkind op l r h]
  case constZero => exact absurd h hk0
  case constAllOnes => exact absurd h hk1
  case otherVal => rfl

theorem visitLeafNode_inv {prog : Program} {cfg : Config} {root : Nat}
    (v depth : Nat) {s : BuilderState} (hml : cfg.maxLeaves ≤ 62)
    (hocc : Occurs prog root v)
    (hkind : ∀ op l r, prog.kind v = .binop op l r → op = .otherOp)
    (hv : s.nodes v = none) (hInv : Inv prog root s) :
    Inv prog root (visitLeafNode prog cfg v depth s).2 := by
  unfold visitLeafNode
  split
  · exact hInv
  next hguard =>
    have hcard : s.leafSet.card ≤ cfg.maxLeaves := by
      rcases Nat.lt_or_ge cfg.maxLeaves s.leafSet.card with h | h
      · exact absurd (Or.inr h) hguard
      · exact h
    have hvnm : v ∉ s.leafValues := by
      intro hmem
      obtain ⟨i, hi, hgd⟩ := mem_getD hmem
      have hcach := hInv.leaf_cached i hi
      rw [hgd, hv] at hcach
      exact Option.noConfusion hcach
    have hvns : v ∉ s.leafSet := fun hc => hvnm ((hInv.mem_iff v).mp hc)
    have hcard62 : s.leafSet.card ≤ 62 := le_trans hcard hml
    show Inv prog root
      (cacheNode v {leafMask prog v s.leafSet.card}
        (pushLeaf v (leafMask prog v s.leafSet.card) s))
    unfold pushLeaf
    split
    next hcond =>
      obtain ⟨hA, hZ, -⟩ := hcond
      have hev2 : leafMask prog v s.leafSet.card = 2 ^ s.leafSet.card := by
        rcases leafMask_cases prog v s.leafSet.card with h | ⟨h, -⟩ | ⟨h, -⟩
        · exact h
        · exact absurd h hZ
        · exact absurd h hA
      have hcne62 : s.leafSet.card ≠ 62 := by
        intro hc
        apply hZ
        rw [hev2, hc]
        rfl
      have hc61 : s.leafSet.card ≤ 61 := by omega
      have hlen : s.leafValues.length = s.leafSet.card := hInv.card_len.symm
      have hlennew :
          (s.leafValues ++ [v]).length = s.leafValues.length + 1 := by simp
      refine ⟨?_, ?_, ?_, ?_, ?_, ?_⟩
      · show (insert v s.leafSet).card = (s.leafValues ++ [v]).length
        rw [Finset.card_insert_of_not_mem hvns, hlennew, hInv.card_len]
      · show (s.leafValues ++ [v]).length ≤ 62
        omega
      · intro x
        show x ∈ insert v s.leafSet ↔ x ∈ s.leafValues ++ [v]
        rw [Finset.mem_insert, List.mem_append, List.mem_singleton,
          hInv.mem_iff x]
        tauto
      · intro i hi
        have hi2 : i < (s.leafValues ++ [v]).length := hi
        rw [hlennew] at hi2
        by_cases hilen : i < s.leafValues.length
        · show (cacheNode v _ _).nodes ((s.leafValues ++ [v]).getD i 0)
            = some {2 ^ i}
          rw [getD_append_left hilen, cacheNode_nodes, if_neg]
          · exact hInv.leaf_cached i hilen
          · intro hEq
            exact hvnm (hEq ▸ getD_mem hilen)
        · have hieq : i = s.leafValues.length := by omega
          subst hieq
          show (cacheNode v _ _).nodes ((s.leafValues ++ [v]).getD
            s.leafValues.length 0) = some {2 ^ s.leafValues.length}
          rw [getD_append_length, cacheNode_nodes, if_pos rfl, hev2, hlen]
      · intro x hx
        have hx2 : x ∈ s.leafValues ++ [v] := hx
        rw [List.mem_append, List.mem_singleton] at hx2
        rcases hx2 with hx2 | rfl
        · exact hInv.leaf_occ x hx2
        · refine ⟨hocc, isLeafValue_of_push hkind ?_ ?_⟩
          · intro hc
            apply hZ
            unfold leafMask
            rw [hc]
          · intro hc
            apply hA
            unfold leafMask
            rw [hc]
      · intro k e he m hm
        show MaskWF (s.leafValues ++ [v]).length m
        rw [hlennew]
        rw [cacheNode_nodes] at he
        by_cases hkv : k = v
        · rw [if_pos hkv] at he
          injection he with h
          rw [← h, Finset.mem_singleton] at hm
          subst hm
          rw [hev2, hlen]
          refine Or.inr (Or.inr ⟨?_, ?_⟩)
          · exact (by positivity : (0 : Nat) < 2 ^ s.leafSet.card).ne'
          · exact Nat.pow_lt_pow_right (by norm_num) (by omega)
        · rw [if_neg hkv] at he
          exact maskWF_mono (by omega) (hInv.masks_wf k e he m hm)
    next hcond =>
      have hsent : leafMask prog v s.leafSet.card = ExprAllOne
          ∨ leafMask prog v s.leafSet.card = ExprZero := by
        by_contra hc
        push_neg at hc
        exact hcond ⟨hc.1, hc.2, hvns⟩
      refine ⟨hInv.card_len, hInv.len_le, hInv.mem_iff, ?_, hInv.leaf_occ, ?_⟩
      · intro i hi
        show (cacheNode v _ s).nodes (s.leafValues.getD i 0) = some {2 ^ i}
        rw [cacheNode_nodes, if_neg]
        · exact hInv.leaf_cached i hi
        · intro hEq
          exact hvnm (hEq ▸ getD_mem hi)
      · intro k e he m hm
        show MaskWF s.leafValues.length m
        rw [cacheNode_nodes] at he
        by_cases hkv : k = v
        · rw [if_pos hkv] at he
          injection he with h
          rw [← h, Finset.mem_singleton] at hm
          subst hm
          rcases hsent with h | h
          · exact Or.inl h
          · exact Or.inr (Or.inl h)
        · rw [if_neg hkv] at he
          exact hInv.masks_wf k e he m hm

theorem getLogicalOpNode_inv (prog : Program) (cfg : Config) (root : Nat)
    (hml : cfg.maxLeaves ≤ 62) :
    ∀ fuel depth v (s : BuilderState), Occurs prog root v → Inv prog root s →
      Inv prog root (getLogicalOpNode prog cfg fuel depth v s).2 := by
  intro fuel
  induction fuel with
  | zero =>
    intro depth v s _ hInv
    exact hInv
  | succ fuel ih =>
    intro depth v s hocc hInv
    cases hn : s.nodes v with
    | some e =>
      simp only [getLogicalOpNode_succ, hn]
      exact hInv
    | none =>
      cases hk : prog.kind v with
      | binop op l r =>
        simp only [getLogicalOpNode_succ, hn, hk]
        unfold visitBinOp
        by_cases hop : op = .otherOp
        · rw [if_pos hop]
          refine visitLeafNode_inv v depth hml hocc ?_ hn hInv
          intro op' l' r' h
          rw [hk] at h
          injection h with h1 h2 h3
          rw [← h1]
          exact hop
        · rw [if_neg hop]
          have hoccl : Occurs prog root l :=
            occurs_trans hocc (Occurs.left op l r hk hop (Occurs.refl l))
          have hoccr : Occurs prog root r :=
            occurs_trans hocc (Occurs.right op l r hk hop (Occurs.refl r))
          split
          next s1 heq =>
            have h1 := ih (depth + 1) l s hoccl hInv
            rw [heq] at h1
            exact h1
          next le s1 heq =>
            have hInv1 := ih (depth + 1) l s hoccl hInv
            rw [heq] at hInv1
            have hle : s1.nodes l = some le := by
              have hc := (getLogicalOpNode_le prog cfg fuel (depth + 1) l s).2 le
              rw [heq] at hc
              exact hc rfl
            split
            next s2 heq2 =>
              have h2 := ih (depth + 1) r s1 hoccr hInv1
              rw [heq2] at h2
              exact h2
            next re s2 heq2 =>
              have hInv2 := ih (depth + 1) r s1 hoccr hInv1
              rw [heq2] at hInv2
              have hre : s2.nodes r = some re := by
                have hc := (getLogicalOpNode_le prog cfg fuel (depth + 1) r s1).2 re
                rw [heq2] at hc
                exact hc rfl
              have hlen12 : s1.leafValues.length ≤ s2.leafValues.length := by
                have hle12 := (getLogicalOpNode_le prog cfg fuel (depth + 1) r s1).1
                rw [heq2] at hle12
                obtain ⟨-, -, t, ht⟩ := hle12
                rw [ht]
                simp
              have hwfle : ∀ m ∈ le, MaskWF s2.leafValues.length m :=
                fun m hm => maskWF_mono hlen12 (hInv1.masks_wf l le hle m hm)
              have hwfre : ∀ m ∈ re, MaskWF s2.leafValues.length m :=
                hInv2.masks_wf r re hre
              have hvleaf : isLeafValue prog v = false := by
                unfold isLeafValue
                rw [hk]
                simp [hop]
              have hvnm : v ∉ s2.leafValues := by
                intro hmem
                have hto := (hInv2.leaf_occ v hmem).2
                rw [hvleaf] at hto
                exact Bool.noConfusion hto
              exact cacheNode_inv hInv2 hvnm
                (binExpr_wf op hInv2.len_le hwfle hwfre)
      | constZero =>
        simp only [getLogicalOpNode_succ, hn, hk]
        refine visitLeafNode_inv v depth hml hocc ?_ hn hInv
        intro op' l' r' h
        rw [hk] at h
        exact ValueKind.noConfusion h
      | constAllOnes =>
        simp only [getLogicalOpNode_succ, hn, hk]
        refine visitLeafNode_inv v depth hml hocc ?_ hn hInv
        intro op' l' r' h
        rw [hk] at h
        exact ValueKind.noConfusion h
      | otherVal =>
        simp only [getLogicalOpNode_succ, hn, hk]
        refine visitLeafNode_inv v depth hml hocc ?_ hn hInv
        intro op' l' r' h
        rw [hk] at h
        exact ValueKind.noConfusion h

theorem toValue_singleton (prog : Program) (s : BuilderState) (m : Nat) :
    logicalOpToValue prog s {m} =
      if m = ExprZero then some prog.zeroId
      else if m = ExprAllOne then some prog.allOnesId
      else if popcount m = 1 then some (s.leafValues.getD (log2_64 m) 0)
      else none := by
  unfold logicalOpToValue
  rw [dif_neg (Finset.singleton_ne_empty m)]
  rw [if_pos (Finset.card_singleton m)]
  simp only [Finset.min'_singleton]

/-- C9: every value `simplify` returns is the zero constant, the all-ones
constant, or one of the opaque leaf values that occur inside the expression
rooted at the input; the simplifier never constructs a new non-constant IR
value. -/
theorem c9_no_new_values (prog : Program) (cfg : Config) (root c v : Nat)
    (hml : cfg.maxLeaves ≤ 62)
    (h : (simplify prog cfg root emptyState c).1 = some v) :
    v = prog.zeroId ∨ v = prog.allOnesId
      ∨ (Occurs prog root v ∧ isLeafValue prog v = true) := by
  rcases hb : getLogicalOpNode prog cfg cfg.maxDepth 0 root emptyState with ⟨r, s'⟩
  have hInv : Inv prog root s' := by
    have hi := getLogicalOpNode_inv prog cfg root hml cfg.maxDepth 0 root
      emptyState (Occurs.refl root) (emptyState_inv prog root)
    rw [hb] at hi
    exact hi
  cases r with
  | none => simp [simplify, hb] at h
  | some e =>
    have hcache : s'.nodes root = some e := by
      have hc := (getLogicalOpNode_le prog cfg cfg.maxDepth 0 root emptyState).2 e
      rw [hb] at hc
      exact hc rfl
    rcases hv : logicalOpToValue prog s' e with _ | w
    · simp [simplify, hb, hv] at h
    · have hw : w = v := by
        by_cases hroot : w = root
        · simp [simplify, hb, hv, hroot] at h
        · simp [simplify, hb, hv, hroot] at h
          exact h
      subst hw
      by_cases hne : e = ∅
      · subst hne
        rw [show logicalOpToValue prog s' ∅ = some prog.zeroId from by
          simp [logicalOpToValue]] at hv
        left
        injection hv with h2
        exact h2.symm
      · by_cases hc1 : e.card = 1
        · obtain ⟨m, rfl⟩ := Finset.card_eq_one.mp hc1
          rw [toValue_singleton] at hv
          by_cases hz : m = ExprZero
          · rw [if_pos hz] at hv
            left
            injection hv with h2
            exact h2.symm
          · rw [if_neg hz] at hv
            by_cases ha : m = ExprAllOne
            · rw [if_pos ha] at hv
              right
              left
              injection hv with h2
              exact h2.symm
            · rw [if_neg ha] at hv
              by_cases hp : popcount m = 1
              · rw [if_pos hp] at hv
                injection hv with h2
                have hwf := hInv.masks_wf root {m} hcache m
                  (Finset.mem_singleton_self m)
                rcases hwf with h' | h' | ⟨h0, hlt⟩
                · exact absurd h' ha
                · exact absurd h' hz
                · have hm64 : m < 2 ^ 64 :=
                    lt_of_lt_of_le hlt
                      (Nat.pow_le_pow_right (by norm_num)
                        (le_trans hInv.len_le (by norm_num)))
                  obtain ⟨i, hi64, rfl⟩ := popcount_eq_one hm64 hp
                  have hilen : i < s'.leafValues.length :=
                    (Nat.pow_lt_pow_iff_right (by norm_num)).mp hlt
                  rw [log2_64_two_pow hi64] at h2
                  right
                  right
                  rw [← h2]
                  exact hInv.leaf_occ _ (getD_mem hilen)
              · rw [if_neg hp] at hv
                exact Option.noConfusion hv
        · rw [show logicalOpToValue prog s' e = none from by
            unfold logicalOpToValue
            rw [dif_neg hne, if_neg hc1]] at hv
          exact Option.noConfusion hv

/-- C9 witness: on scenario S6 `simplify` returns value 3, which is an
opaque leaf occurring in the input expression. -/
theorem c9_no_new_values_witness :
    defaultConfig.maxLeaves ≤ 62
    ∧ (simplify progS6 defaultConfig 11 emptyState 0).1 = some 3
    ∧ (3 = progS6.zeroId ∨ 3 = progS6.allOnesId
        ∨ (Occurs progS6 11 3 ∧ isLeafValue progS6 3 = true)) :=
  ⟨by decide, by decide,
    c9_no_new_values progS6 defaultConfig 11 0 3 (by decide) (by decide)⟩

/-- C10: throughout a `simplify` call on a fresh helper, the leaf table and
the leaf-bit assignment stay consistent: the `i`-th leaf-table entry is the
value whose cached node carries the singleton polynomial `{1 << i}`, and the
reconstruction lookup `LeafValues[Log2_64(mask)]` on that one-hot mask
returns exactly that value. -/
theorem c10_leaf_table (prog : Program) (cfg : Config) (root c : Nat)
    (hml : cfg.maxLeaves ≤ 62) (i : Nat)
    (hi : i < (simplify prog cfg root emptyState c).2.1.leafValues.length) :
    (simplify prog cfg root emptyState c).2.1.nodes
        ((simplify prog cfg root emptyState c).2.1.leafValues.getD i 0)
      = some {2 ^ i}
    ∧ logicalOpToValue prog (simplify prog cfg root emptyState c).2.1 {2 ^ i}
      = some ((simplify prog cfg root emptyState c).2.1.leafValues.getD i 0) := by
  rw [simplify_state] at hi ⊢
  have hInv : Inv prog root (getLogicalOpNode prog cfg cfg.maxDepth 0 root
      emptyState).2 :=
    getLogicalOpNode_inv prog cfg root hml cfg.maxDepth 0 root emptyState
      (Occurs.refl root) (emptyState_inv prog root)
  have hi64 : i < 64 := by
    have := hInv.len_le
    omega
  have h62 : i ≠ 62 := by
    have := hInv.len_le
    omega
  have h63 : i ≠ 63 := by
    have := hInv.len_le
    omega
  refine ⟨hInv.leaf_cached i hi, ?_⟩
  rw [toValue_singleton, if_neg (two_pow_ne_exprZero h62),
    if_neg (two_pow_ne_allOne h63), if_pos (popcount_two_pow hi64),
    log2_64_two_pow hi64]

/-- C10 witness: on scenario S6 the first leaf-table entry carries the
polynomial `{1}` and is returned by reconstruction of `{1}`. -/
theorem c10_leaf_table_witness :
    defaultConfig.maxLeaves ≤ 62
    ∧ (0 : Nat) < (simplify progS6 defaultConfig 11 emptyState 0).2.1.leafValues.length
    ∧ ((simplify progS6 defaultConfig 11 emptyState 0).2.1.nodes
          ((simplify progS6 defaultConfig 11 emptyState
            0).2.1.leafValues.getD 0 0) = some {2 ^ 0}
        ∧ logicalOpToValue progS6
            (simplify progS6 defaultConfig 11 emptyState 0).2.1 {2 ^ 0}
          = some ((simplify progS6 defaultConfig 11 emptyState
              0).2.1.leafValues.getD 0 0)) :=
  ⟨by decide, by decide,
    c10_leaf_table progS6 defaultConfig 11 0 (by decide) 0 (by decide)⟩

theorem mem_pushLeaf {v ev : Nat} {s : BuilderState}
    (hA : ev ≠ ExprAllOne) (hZ : ev ≠ ExprZero) :
    v ∈ (pushLeaf v ev s).leafSet := by
  unfold pushLeaf
  split
  · exact Finset.mem_insert_self v _
  next hc =>
    by_cases hvs : v ∈ s.leafSet
    · exact hvs
    · exact absurd ⟨hA, hZ, hvs⟩ hc

theorem pushLeaf_card (v ev : Nat) (s : BuilderState) :
    (pushLeaf v ev s).leafSet.card ≤ s.leafSet.card + 1 := by
  unfold pushLeaf
  split
  · exact Finset.card_insert_le _ _
  · exact Nat.le_succ _

theorem visitLeafNode_closed {prog : Program} {cfg : Config}
    (v depth : Nat) {s : BuilderState} (hml : cfg.maxLeaves ≤ 61)
    (hkind : ∀ op l r, prog.kind v = .binop op l r → op = .otherOp)
    (hcl : CacheClosed prog s) (hcard : s.leafSet.card ≤ cfg.maxLeaves + 1) :
    CacheClosed prog (visitLeafNode prog cfg v depth s).2
    ∧ (visitLeafNode prog cfg v depth s).2.leafSet.card ≤ cfg.maxLeaves + 1 := by
  unfold visitLeafNode
  split
  · exact ⟨hcl, hcard⟩
  next hguard =>
    have hcard2 : s.leafSet.card ≤ cfg.maxLeaves := by
      rcases Nat.lt_or_ge cfg.maxLeaves s.leafSet.card with h | h
      · exact absurd (Or.inr h) hguard
      · exact h
    constructor
    · intro k hk u hocc hleaf
      show u ∈ (pushLeaf v (leafMask prog v s.leafSet.card) s).leafSet
      by_cases hkv : k = v
      · have hocc2 : Occurs prog v u := hkv ▸ hocc
        rcases occurs_inv hocc2 with hu | ⟨op, l, r, hkk, hopne, -⟩
        · rw [hu] at hleaf ⊢
          rcases leafMask_cases prog v s.leafSet.card with hev | ⟨-, hkz⟩ | ⟨-, hka⟩
          · refine mem_pushLeaf ?_ ?_
            · rw [hev]
              exact two_pow_ne_allOne (by omega)
            · rw [hev]
              exact two_pow_ne_exprZero (by omega)
          · exfalso
            unfold isLeafValue at hleaf
            rw [hkz] at hleaf
            exact Bool.noConfusion hleaf
          · exfalso
            unfold isLeafValue at hleaf
            rw [hka] at hleaf
            exact Bool.noConfusion hleaf
        · exact absurd (hkind op l r hkk) hopne
      · have hk' : ∃ e, s.nodes k = some e := by
          obtain ⟨e, he⟩ := hk
          simp only [cacheNode_nodes] at he
          rw [if_neg hkv, pushLeaf_nodes] at he
          exact ⟨e, he⟩
        exact (stateLE_pushLeaf v _ s).2.1 (hcl k hk' u hocc hleaf)
    · show (pushLeaf v (leafMask prog v s.leafSet.card) s).leafSet.card
        ≤ cfg.maxLeaves + 1
      have := pushLeaf_card v (leafMask prog v s.leafSet.card) s
      omega

theorem getLogicalOpNode_closed (prog : Program) (cfg : Config)
    (hml : cfg.maxLeaves ≤ 61) :
    ∀ fuel depth v (s : BuilderState),
      CacheClosed prog s → s.leafSet.card ≤ cfg.maxLeaves + 1 →
        CacheClosed prog (getLogicalOpNode prog cfg fuel depth v s).2
        ∧ (getLogicalOpNode prog cfg fuel depth v s).2.leafSet.card
            ≤ cfg.maxLeaves + 1 := by
  intro fuel
  induction fuel with
  | zero =>
    intro depth v s hcl hcard
    exact ⟨hcl, hcard⟩
  | succ fuel ih =>
    intro depth v s hcl hcard
    cases hn : s.nodes v with
    | some e =>
      simp only [getLogicalOpNode_succ, hn]
      exact ⟨hcl, hcard⟩
    | none =>
      cases hk : prog.kind v with
      | binop op l r =>
        simp only [getLogicalOpNode_succ, hn, hk]
        unfold visitBinOp
        by_cases hop : op = .otherOp
        · rw [if_pos hop]
          refine visitLeafNode_closed v depth hml ?_ hcl hcard
          intro op' l' r' h
          rw [hk] at h
          injection h with h1 h2 h3
          rw [← h1]
          exact hop
        · rw [if_neg hop]
          split
          next s1 heq =>
            have h1 := ih (depth + 1) l s hcl hcard
            rw [heq] at h1
            exact h1
          next le s1 heq =>
            have hcl1 := ih (depth + 1) l s hcl hcard
            rw [heq] at hcl1
            have hle : s1.nodes l = some le := by
              have hc := (getLogicalOpNode_le prog cfg fuel (depth + 1) l s).2 le
              rw [heq] at hc
              exact hc rfl
            split
            next s2 heq2 =>
              have h2 := ih (depth + 1) r s1 hcl1.1 hcl1.2
              rw [heq2] at h2
              exact h2
            next re s2 heq2 =>
              have hcl2 := ih (depth + 1) r s1 hcl1.1 hcl1.2
              rw [heq2] at hcl2
              have hre : s2.nodes r = some re := by
                have hc := (getLogicalOpNode_le prog cfg fuel (depth + 1) r s1).2 re
                rw [heq2] at hc
                exact hc rfl
              have hmono : StateLE s1 s2 := by
                have h12 := (getLogicalOpNode_le prog cfg fuel (depth + 1) r s1).1
                rw [heq2] at h12
                exact h12
              constructor
              · intro k hk2 u hocc hleaf
                show u ∈ s2.leafSet
                by_cases hkv : k = v
                · have hocc2 : Occurs prog v u := hkv ▸ hocc
                  rcases occurs_inv hocc2 with hu | ⟨op', l', r', hkk, hopne, hlr⟩
                  · exfalso
                    have hfalse : isLeafValue prog v = false := by
                      unfold isLeafValue
                      rw [hk]
                      simp [hop]
                    rw [hu, hfalse] at hleaf
                    exact Bool.noConfusion hleaf
                  · rw [hk] at hkk
                    injection hkk with h1 h2 h3
                    rcases hlr with ho | ho
                    · rw [← h2] at ho
                      obtain ⟨le2, hle2⟩ := hmono.1 l le hle
                      exact hcl2.1 l ⟨le2, hle2⟩ u ho hleaf
                    · rw [← h3] at ho
                      exact hcl2.1 r ⟨re, hre⟩ u ho hleaf
                · obtain ⟨e', he'⟩ := hk2
                  simp only [cacheNode_nodes] at he'
                  rw [if_neg hkv] at he'
                  exact hcl2.1 k ⟨e', he'⟩ u hocc hleaf
              · exact hcl2.2
      | constZero =>
        simp only [getLogicalOpNode_succ, hn, hk]
        refine visitLeafNode_closed v depth hml ?_ hcl hcard
        intro op' l' r' h
        rw [hk] at h
        exact ValueKind.noConfusion h
      | constAllOnes =>
        simp only [getLogicalOpNode_succ, hn, hk]
        refine visitLeafNode_closed v depth hml ?_ hcl hcard
        intro op' l' r' h
        rw [hk] at h
        exact ValueKind.noConfusion h
      | otherVal =>
        simp only [getLogicalOpNode_succ, hn, hk]
        refine visitLeafNode_closed v depth hml ?_ hcl hcard
        intro op' l' r' h
        rw [hk] at h
        exact ValueKind.noConfusion h

/-- C3 counterexample: with the default bounds (`MaxLeaves = 8`), the
expression rooted at value 20 contains nine distinct opaque leaves — more
than `MaxLeaves` — and yet `simplify` does not return "no change": it
returns leaf 9.  (The builder only bails out when a fresh leaf is discovered
while the leaf set already holds more than `MaxLeaves` values, so up to
`MaxLeaves + 1` leaves are tolerated.) -/
theorem c3_counterexample :
    defaultConfig.maxLeaves = 8
    ∧ ({1, 2, 3, 4, 5, 6, 7, 8, 9} : Finset Nat).card = 9
    ∧ (∀ u ∈ ({1, 2, 3, 4, 5, 6, 7, 8, 9} : Finset Nat),
        Occurs progChains 20 u ∧ isLeafValue progChains u = true)
    ∧ (simplify progChains defaultConfig 20 emptyState 0).1 = some 9 := by
  have h16 : Occurs progChains 20 16 :=
    Occurs.left .xorOp 16 21 (by decide) (by decide) (Occurs.refl 16)
  have h21 : Occurs progChains 20 21 :=
    Occurs.right .xorOp 16 21 (by decide) (by decide) (Occurs.refl 21)
  have h14 : Occurs progChains 20 14 :=
    occurs_trans h16 (Occurs.left .xorOp 14 15 (by decide) (by decide)
      (Occurs.refl 14))
  have h15 : Occurs progChains 20 15 :=
    occurs_trans h16 (Occurs.right .xorOp 14 15 (by decide) (by decide)
      (Occurs.refl 15))
  have h10 : Occurs progChains 20 10 :=
    occurs_trans h14 (Occurs.left .xorOp 10 11 (by decide) (by decide)
      (Occurs.refl 10))
  have h11 : Occurs progChains 20 11 :=
    occurs_trans h14 (Occurs.right .xorOp 10 11 (by decide) (by decide)
      (Occurs.refl 11))
  have h12 : Occurs progChains 20 12 :=
    occurs_trans h15 (Occurs.left .xorOp 12 13 (by decide) (by decide)
      (Occurs.refl 12))
  have h13 : Occurs progChains 20 13 :=
    occurs_trans h15 (Occurs.right .xorOp 12 13 (by decide) (by decide)
      (Occurs.refl 13))
  refine ⟨rfl, by decide, ?_, by decide⟩
  intro u hu
  simp only [Finset.mem_insert, Finset.mem_singleton] at hu
  rcases hu with rfl | rfl | rfl | rfl | rfl | rfl | rfl | rfl | rfl
  · exact ⟨occurs_trans h10 (Occurs.left .xorOp 1 2 (by decide) (by decide)
      (Occurs.refl 1)), by decide⟩
  · exact ⟨occurs_trans h10 (Occurs.right .xorOp 1 2 (by decide) (by decide)
      (Occurs.refl 2)), by decide⟩
  · exact ⟨occurs_trans h11 (Occurs.left .xorOp 3 4 (by decide) (by decide)
      (Occurs.refl 3)), by decide⟩
  · exact ⟨occurs_trans h11 (Occurs.right .xorOp 3 4 (by decide) (by decide)
      (Occurs.refl 4)), by decide⟩
  · exact ⟨occurs_trans h12 (Occurs.left .xorOp 5 6 (by decide) (by decide)
      (Occurs.refl 5)), by decide⟩
  · exact ⟨occurs_trans h12 (Occurs.right .xorOp 5 6 (by decide) (by decide)
      (Occurs.refl 6)), by decide⟩
  · exact ⟨occurs_trans h13 (Occurs.left .xorOp 7 8 (by decide) (by decide)
      (Occurs.refl 7)), by decide⟩
  · exact ⟨occurs_trans h13 (Occurs.right .xorOp 7 8 (by decide) (by decide)
      (Occurs.refl 8)), by decide⟩
  · exact ⟨occurs_trans h21 (Occurs.right .xorOp 16 9 (by decide) (by decide)
      (Occurs.refl 9)), by decide⟩

/-- C3 amended: with `MaxLeaves ≤ 61` (in particular the default 8), if the
number of distinct opaque leaves of the root expression exceeds
`MaxLeaves + 1`, `simplify` deterministically returns "no change"; and the
recursive walk bails out deterministically whenever it reaches depth
`MaxDepth` (i.e. when its remaining fuel is 0), regardless of the shape of
the expression below the cutoff. -/
theorem c3_amended_bounds (prog : Program) (cfg : Config) (root c : Nat)
    (hml : cfg.maxLeaves ≤ 61) (S : Finset Nat)
    (hS : ∀ u ∈ S, Occurs prog root u ∧ isLeafValue prog u = true)
    (hcard : cfg.maxLeaves + 1 < S.card) :
    (simplify prog cfg root emptyState c).1 = none
    ∧ ∀ (prog2 : Program) (cfg2 : Config) (d v : Nat) (s : BuilderState),
        getLogicalOpNode prog2 cfg2 0 d v s = (none, s) := by
  refine ⟨?_, fun _ _ _ _ _ => rfl⟩
  rcases hb : getLogicalOpNode prog cfg cfg.maxDepth 0 root emptyState with ⟨r, s'⟩
  cases r with
  | none => simp [simplify, hb]
  | some e =>
    exfalso
    have hcl0 : CacheClosed prog emptyState := by
      intro k hk
      obtain ⟨e', he'⟩ := hk
      simp [emptyState] at he'
    have hclosed := getLogicalOpNode_closed prog cfg hml cfg.maxDepth 0 root
      emptyState hcl0 (by simp [emptyState])
    rw [hb] at hclosed
    have hroot : ∃ e2, s'.nodes root = some e2 := by
      have hc := (getLogicalOpNode_le prog cfg cfg.maxDepth 0 root emptyState).2 e
      rw [hb] at hc
      exact ⟨e, hc rfl⟩
    have hsub : S ⊆ s'.leafSet := fun u hu =>
      hclosed.1 root hroot u (hS u hu).1 (hS u hu).2
    have hle := Finset.card_le_card hsub
    have hcard2 : s'.leafSet.card ≤ cfg.maxLeaves + 1 := hclosed.2
    omega

/-- C3 amended witness: with `MaxLeaves = 0`, the two-leaf expression
`1 ^ 2` has more than `MaxLeaves + 1` distinct opaque leaves, and `simplify`
returns "no change". -/
theorem c3_amended_bounds_witness :
    (0 : Nat) ≤ 61
    ∧ (∀ u ∈ ({1, 2} : Finset Nat),
        Occurs progChains 10 u ∧ isLeafValue progChains u = true)
    ∧ (0 : Nat) + 1 < ({1, 2} : Finset Nat).card
    ∧ (simplify progChains ⟨0, 8⟩ 10 emptyState 0).1 = none := by
  have hS : ∀ u ∈ ({1, 2} : Finset Nat),
      Occurs progChains 10 u ∧ isLeafValue progChains u = true := by
    intro u hu
    simp only [Finset.mem_insert, Finset.mem_singleton] at hu
    rcases hu with rfl | rfl
    · exact ⟨Occurs.left .xorOp 1 2 (by decide) (by decide) (Occurs.refl 1),
        by decide⟩
    · exact ⟨Occurs.right .xorOp 1 2 (by decide) (by decide) (Occurs.refl 2),
        by decide⟩
  exact ⟨by decide, hS, by decide,
    (c3_amended_bounds progChains ⟨0, 8⟩ 10 0 (by decide) {1, 2} hS
      (by decide)).1⟩

end CLC
